import Mathlib

/-!
Verification of the file-synchronization core of the cr deployment CLI.

This file embeds, shallowly, the path-filtering and tree-walking logic of
cr/utils.py (EXCLUDE_DIRNAMES, is_in_path, paths_to_deploy) and the remote
scan / transfer / session logic of cr/ssh.py (walk_remote inside Server.get,
the download loop of Server.get, Server.put, Server.connect, Server.open_sftp,
Server.close).

Modelling conventions:
* A local path (pathlib.Path, already resolved) and a remote path
  (pathlib.PurePosixPath) are lists of path components below the root of the
  filesystem.  Symbolic links are not modelled, so Path.resolve is the
  identity and the resolved form of a path is the path itself.
* The local filesystem seen by os.walk is a finite tree of entries; the
  Path.is_dir queries that is_in_path performs against the ambient
  filesystem are modelled by an explicit predicate passed as a parameter.
* Remote listings (SFTPClient.listdir_attr) are finite trees of items
  carrying an optional stat mode, exactly as paramiko reports them.
* Side effects of the transfer engine (sftp.mkdir, sftp.put, sftp.get,
  os.makedirs, progress SKIP/advance updates) are modelled as event lists;
  exceptions (FileNotFoundError from lstat, ValueError from relative_to)
  are modelled as explicit error results.  Progress reporting is modelled
  with a progress bar attached (progress is not None in the Python code).
* LOGGER calls are not modelled; where a claim mentions a logged warning the
  corresponding code path is identified in comments.
-/

/-- A local filesystem path (pathlib.Path), as the list of its components
below the filesystem root, in resolved absolute form. -/
abbrev LPath := List String

/-- A remote POSIX path (pathlib.PurePosixPath), as the list of its
components. -/
abbrev RPath := List String

/-- The string consisting of a single dot, used by the name-based hidden-file
rule (name.startswith in the Python source). -/
def dotStr : String := "."

/-- List of directory names to always exclude from deployments
(cr/utils.py, EXCLUDE_DIRNAMES). -/
def EXCLUDE_DIRNAMES : List String := ["__pycache__", "node_modules", "htmlcov", "venv"]

/-- Last component of a path (pathlib name attribute). -/
def pathName (p : LPath) : String :=
  match p.getLast? with
  | some n => n
  | none => ""

/-- Membership of p in q.parents (pathlib): p is a strict ancestor of q,
i.e. a proper prefix of its component list. -/
def inParents (p q : LPath) : Bool := p.isPrefixOf q && p != q

/-- cr/utils.py is_in_path: check if q is in paths OR is a child of any dirs
in paths.  The Path.is_dir filesystem query is modelled by the isDir
parameter. -/
def is_in_path (isDir : LPath → Bool) (q : LPath) (paths : List LPath) : Bool :=
  decide (q ∈ paths) || paths.any (fun p => isDir p && inParents p q)

/-- b lies strictly beneath a: a is a proper prefix of b's component list. -/
def Beneath (a b : List String) : Prop := a <+: b ∧ a ≠ b

instance (a b : List String) : Decidable (Beneath a b) := by
  unfold Beneath; infer_instance

/-! ## The local tree seen by os.walk -/

/-- One node of the local directory tree walked by os.walk in
paths_to_deploy: either a regular file or a directory with its children. -/
inductive Entry where
  | file (name : String)
  | dir (name : String) (children : List Entry)

/-- The name of a local tree entry. -/
def Entry.name : Entry → String
  | .file n => n
  | .dir n _ => n

/-- Decision taken by the directory loop of paths_to_deploy for a candidate
subdirectory path dp (cr/utils.py lines 305-322): true means the directory is
appended to the result and descended into, false means it is removed from the
os.walk dirs list (pruned).  The branch order is exactly that of the source:
the include check comes first, the exclusion conditions are only consulted
when the include check has not fired. -/
def dirDecision (isDir : LPath → Bool) (e i : List LPath) (dp : LPath) : Bool :=
  if is_in_path isDir dp i then true
  else if is_in_path isDir dp e || (pathName dp).startsWith dotStr
      || decide (pathName dp ∈ EXCLUDE_DIRNAMES) then false
  else true

/-- Decision taken by the file loop of paths_to_deploy for a candidate file
path fp (cr/utils.py lines 325-338): true means the file is appended.  No
name-based condition appears: only the include set and the exclude set are
consulted. -/
def fileDecision (isDir : LPath → Bool) (e i : List LPath) (fp : LPath) : Bool :=
  if is_in_path isDir fp i then true
  else if is_in_path isDir fp e then false
  else true

/-- The directory paths appended while looping over the dirs of one os.walk
level rooted at r: each subdirectory that the walk keeps (force-included or
included by default), in listing order. -/
def levelDirPaths (isDir : LPath → Bool) (e i : List LPath) (r : LPath)
    (entries : List Entry) : List LPath :=
  entries.filterMap fun en =>
    match en with
    | .dir n _ => if dirDecision isDir e i (r ++ [n]) then some (r ++ [n]) else none
    | .file _ => none

/-- The file paths appended while looping over the files of one os.walk level
rooted at r. -/
def levelFilePaths (isDir : LPath → Bool) (e i : List LPath) (r : LPath)
    (entries : List Entry) : List LPath :=
  entries.filterMap fun en =>
    match en with
    | .file n => if fileDecision isDir e i (r ++ [n]) then some (r ++ [n]) else none
    | .dir _ _ => none

mutual

/-- cr/utils.py paths_to_deploy, for the subtree of the local filesystem
rooted at r whose children are entries.  os.walk yields the triple for r
first (the loop over dirs appends kept directory paths and prunes excluded
ones, then the loop over files appends kept file paths), and then recurses
depth-first into exactly the directories that were not pruned. -/
def paths_to_deploy (isDir : LPath → Bool) (e i : List LPath) (r : LPath)
    (entries : List Entry) : List LPath :=
  levelDirPaths isDir e i r entries ++ levelFilePaths isDir e i r entries ++
    walkSubdirs isDir e i r entries
termination_by 2 * sizeOf entries + 1
decreasing_by
  all_goals simp_wf

/-- The recursion os.walk performs below one level: walk each subdirectory
that survived the directory loop, in listing order. -/
def walkSubdirs (isDir : LPath → Bool) (e i : List LPath) (r : LPath)
    (entries : List Entry) : List LPath :=
  match entries with
  | [] => []
  | .file _ :: rest => walkSubdirs isDir e i r rest
  | .dir n cs :: rest =>
    if dirDecision isDir e i (r ++ [n]) then
      paths_to_deploy isDir e i (r ++ [n]) cs ++ walkSubdirs isDir e i r rest
    else walkSubdirs isDir e i r rest
termination_by 2 * sizeOf entries
decreasing_by
  all_goals simp_wf
  all_goals omega

end

/-- Well-formedness of a directory listing as a real filesystem produces it:
sibling names are distinct at every level. -/
inductive WfEntries : List Entry → Prop where
  | mk : ∀ {entries : List Entry}, (entries.map Entry.name).Nodup →
      (∀ n cs, Entry.dir n cs ∈ entries → WfEntries cs) → WfEntries entries

/-! ## The remote side: stat modes, walk_remote, download loop of get -/

/-- stat.S_IFMT mask. -/
def S_IFMT : Nat := 0o170000

/-- stat.S_IFDIR. -/
def S_IFDIR : Nat := 0o040000

/-- stat.S_IFREG. -/
def S_IFREG : Nat := 0o100000

/-- stat.S_ISDIR. -/
def S_ISDIR (m : Nat) : Bool := decide (m &&& S_IFMT = S_IFDIR)

/-- stat.S_ISREG. -/
def S_ISREG (m : Nat) : Bool := decide (m &&& S_IFMT = S_IFREG)

/-- One remote item as returned by SFTPClient.listdir_attr: its filename,
its (possibly undetermined) stat mode, and, for the modelled remote
filesystem, the items that listing it would return. -/
inductive RItem where
  | mk (filename : String) (st_mode : Option Nat) (children : List RItem)

/-- Filename of a remote item. -/
def RItem.filename : RItem → String
  | .mk f _ _ => f

/-- Stat mode of a remote item. -/
def RItem.st_mode : RItem → Option Nat
  | .mk _ m _ => m

/-- Children of a remote item (what listdir_attr under it returns). -/
def RItem.children : RItem → List RItem
  | .mk _ _ cs => cs

/-- cr/ssh.py TransferPath: info about a file that exists on both the server
and locally.  The Python field named local is called localPath here because
local is a reserved word in Lean. -/
structure TransferPath where
  localPath : LPath
  relative : RPath
  remote : RPath
  remote_st_mode : Option Nat
deriving DecidableEq

/-- cr/ssh.py walk_remote (nested in Server.get): recursively scan remote dir
sp and return the list of files and directories to download, appended to the
accumulator lp.  s is the remote root passed to get, r the local root.
fullpath.relative_to(s) is modelled by dropping the components of s: every
recursive call keeps sp an extension of s, so relative_to never raises.
An item with st_mode None is appended after a logged warning (LOGGER.warning,
not modelled); a directory item is skipped when its relative path is in e,
its name starts with a dot, or its name is in EXCLUDE_DIRNAMES, and otherwise
appended and recursed into; a regular-file item is skipped when its relative
path is in e and otherwise appended; any other mode is ignored. -/
def walk_remote (s : RPath) (r : LPath) (e : List RPath) (sp : RPath)
    (items : List RItem) (lp : List TransferPath) : List TransferPath :=
  match items with
  | [] => lp
  | .mk fn sm cs :: rest =>
    let fullpath := sp ++ [fn]
    let relpath := fullpath.drop s.length
    let tp : TransferPath :=
      { localPath := r ++ relpath, relative := relpath,
        remote := fullpath, remote_st_mode := sm }
    let lp' :=
      match sm with
      | none => lp ++ [tp]
      | some m =>
        if S_ISDIR m then
          if decide (relpath ∈ e) || fn.startsWith dotStr
              || decide (fn ∈ EXCLUDE_DIRNAMES) then lp
          else walk_remote s r e fullpath cs (lp ++ [tp])
        else if S_ISREG m then
          if decide (relpath ∈ e) then lp else lp ++ [tp]
        else lp
    walk_remote s r e sp rest lp'
termination_by sizeOf items
decreasing_by
  all_goals simp_wf
  all_goals omega

/-- Well-formedness of a remote listing: sibling filenames are distinct at
every level, as a real filesystem guarantees. -/
inductive WfItems : List RItem → Prop where
  | mk : ∀ {items : List RItem}, (items.map RItem.filename).Nodup →
      (∀ fn sm cs, RItem.mk fn sm cs ∈ items → WfItems cs) → WfItems items

/-- Observable actions of the download loop of Server.get
(cr/ssh.py lines 233-250), with the progress bar attached. -/
inductive GetEvent where
  | skip (relative : RPath)
  | mkdirLocal (relative : RPath) (localp : LPath)
  | getFile (remote : RPath) (localp : LPath)
  | advance
deriving DecidableEq

/-- The download loop of Server.get: for each transfer path in order, an
entry without a stat mode gets a SKIP notice and nothing else; a directory
gets a local MKDIR (os.makedirs, exist_ok); a regular file is downloaded
(sftp.get); any other mode gets nothing; the progress bar is advanced once
per entry in every case. -/
def downloadPhase : List TransferPath → List GetEvent
  | [] => []
  | tp :: rest =>
    (match tp.remote_st_mode with
     | none => [GetEvent.skip tp.relative]
     | some m =>
       if S_ISDIR m then [GetEvent.mkdirLocal tp.relative tp.localPath]
       else if S_ISREG m then [GetEvent.getFile tp.remote tp.localPath]
       else []) ++ GetEvent.advance :: downloadPhase rest

/-- Invariant of a depth-first remote scan rooted at sp: every entry lies
strictly beneath sp; no entry is preceded by an entry strictly beneath it;
an entry with later entries strictly beneath it is a directory; and the
entries strictly beneath an entry occupy a contiguous block immediately
after it. -/
def ScanInv (sp : RPath) (l : List TransferPath) : Prop :=
  (∀ tp ∈ l, Beneath sp tp.remote) ∧
  List.Pairwise (fun a b => ¬ Beneath b.remote a.remote) l ∧
  List.Pairwise (fun a b => Beneath a.remote b.remote →
    ∃ m, a.remote_st_mode = some m ∧ S_ISDIR m = true) l ∧
  ∀ (x k j : Fin l.length), x < k → k < j →
    Beneath (l.get x).remote (l.get j).remote →
    Beneath (l.get x).remote (l.get k).remote

/-! ## Server.put -/

/-- Result of sftp.lstat on a remote path: success, FileNotFoundError, or
any other exception. -/
inductive LStatRes where
  | found
  | notFound
  | otherError
deriving DecidableEq

/-- Errors that abort Server.put: ValueError from Path.relative_to when a
path is not under the root, or a propagated lstat exception other than
FileNotFoundError. -/
inductive PutErr where
  | valueError
  | lstatError
deriving DecidableEq

/-- Observable remote operations of Server.put, with the progress bar
attached: remote mkdir with its mode, file upload, progress advance. -/
inductive PEvent where
  | mkdir (remote : RPath) (mode : Nat)
  | putFile (localp : LPath) (remote : RPath)
  | advance
deriving DecidableEq

/-- pathlib Path.relative_to: the components of p relative to base, or None
for the ValueError raised when p is not equal to or below base. -/
def relative_to (p base : LPath) : Option LPath :=
  if base.isPrefixOf p then some (p.drop base.length) else none

/-- One iteration of the loop of Server.put (cr/ssh.py lines 104-128) for the
path p: compute the root-relative path (ValueError aborts), then for a
directory lstat the remote path and mkdir it with mode 0o770 only on
FileNotFoundError (any other lstat failure propagates), for a file upload it;
finally advance the progress bar.  The lstat parameter models the remote
filesystem state seen by sftp.lstat. -/
def putOne (lstat : RPath → LStatRes) (isDir : LPath → Bool) (s : RPath)
    (rr : LPath) (p : LPath) : Except PutErr (List PEvent) :=
  match relative_to p rr with
  | none => Except.error PutErr.valueError
  | some relative_p =>
    let remote_p := s ++ relative_p
    if isDir p then
      match lstat remote_p with
      | LStatRes.found => Except.ok [PEvent.advance]
      | LStatRes.notFound => Except.ok [PEvent.mkdir remote_p 0o770, PEvent.advance]
      | LStatRes.otherError => Except.error PutErr.lstatError
    else Except.ok [PEvent.putFile p remote_p, PEvent.advance]

/-- The loop of Server.put over the path list: operations are performed in
order until the first exception; the events performed so far are kept and the
error, if any, aborts the remaining elements. -/
def putLoop (lstat : RPath → LStatRes) (isDir : LPath → Bool) (s : RPath)
    (rr : LPath) : List LPath → List PEvent × Option PutErr
  | [] => ([], none)
  | p :: rest =>
    match putOne lstat isDir s rr p with
    | Except.error err => ([], some err)
    | Except.ok evs =>
      let res := putLoop lstat isDir s rr rest
      (evs ++ res.1, res.2)

/-- The root used by Server.put for relative-path computation: the root
itself, or its parent when the root is a file (cr/ssh.py lines 98-99). -/
def effRoot (isFile : LPath → Bool) (r : LPath) : LPath :=
  if isFile r then r.dropLast else r

/-- cr/ssh.py Server.put: upload the list of paths lp, relative to local root
r, to server path s.  Returns the remote operations performed and the error
that aborted the call, if any. -/
def put (lstat : RPath → LStatRes) (isDir isFile : LPath → Bool)
    (lp : List LPath) (r : LPath) (s : RPath) : List PEvent × Option PutErr :=
  putLoop lstat isDir s (effRoot isFile r) lp

/-! ## Server connection state (connect, open_sftp, close) -/

/-- Connection state of a Server: the cached SSHClient and SFTPClient, if
any, identified abstractly by numbers. -/
structure ServerState where
  client : Option Nat
  sftp : Option Nat
deriving DecidableEq

/-- Observable connection-management actions. -/
inductive ConnEvent where
  | authenticate
  | openChannel
  | closeChannel
  | closeTransport
deriving DecidableEq

/-- cr/ssh.py Server.connect: return the cached client if one exists,
otherwise authenticate a new one (fresh) and cache it. -/
def connect (st : ServerState) (fresh : Nat) : Nat × ServerState × List ConnEvent :=
  match st.client with
  | some c => (c, st, [])
  | none => (fresh, { st with client := some fresh }, [ConnEvent.authenticate])

/-- cr/ssh.py Server.open_sftp: return the cached SFTP channel if one exists,
otherwise connect (using the cache) and open a new channel (freshSftp). -/
def open_sftp (st : ServerState) (freshClient freshSftp : Nat) :
    Nat × ServerState × List ConnEvent :=
  match st.sftp with
  | some f => (f, st, [])
  | none =>
    let res := connect st freshClient
    (freshSftp, { client := res.2.1.client, sftp := some freshSftp },
      res.2.2 ++ [ConnEvent.openChannel])

/-- cr/ssh.py Server.close: close and clear the SFTP channel if present,
then close and clear the client if present. -/
def close (st : ServerState) : ServerState × List ConnEvent :=
  match st.sftp, st.client with
  | some _, some _ => (⟨none, none⟩, [ConnEvent.closeChannel, ConnEvent.closeTransport])
  | some _, none => (⟨none, none⟩, [ConnEvent.closeChannel])
  | none, some _ => (⟨none, none⟩, [ConnEvent.closeTransport])
  | none, none => (⟨none, none⟩, [])

/-! ## General path lemmas -/

theorem Beneath.length_lt {a b : List String} (h : Beneath a b) : a.length < b.length :=
  lt_of_le_of_ne h.1.length_le (fun heq => h.2 (h.1.eq_of_length heq))

theorem Beneath.isPrefix {a b : List String} (h : Beneath a b) : a <+: b := h.1

theorem beneath_irrefl (a : List String) : ¬ Beneath a a := fun h => h.2 rfl

theorem prefix_eq_of_length_eq {a b q : List String} (ha : a <+: q) (hb : b <+: q)
    (h : a.length = b.length) : a = b :=
  (List.prefix_of_prefix_length_le ha hb h.le).eq_of_length h

theorem beneath_of_prefix_lt {a b q : List String} (ha : a <+: q) (hb : b <+: q)
    (h : a.length < b.length) : Beneath a b :=
  ⟨List.prefix_of_prefix_length_le ha hb h.le, fun heq => by simp [heq] at h⟩

theorem Beneath.trans {a b c : List String} (h1 : Beneath a b) (h2 : Beneath b c) :
    Beneath a c :=
  ⟨h1.1.trans h2.1, fun heq => absurd (heq ▸ h2.length_lt) (by simp [Nat.not_lt, h1.length_lt.le, heq ▸ h1.length_lt.le])⟩

theorem beneath_append_singleton (r : List String) (n : String) : Beneath r (r ++ [n]) :=
  ⟨⟨[n], rfl⟩, by simp⟩

/-! ## Server.put: claims C4 and C9 -/

theorem putLoop_append_ok (lstat : RPath → LStatRes) (isDir : LPath → Bool) (s : RPath)
    (rr : LPath) (l1 l2 : List LPath) (ev1 : List PEvent)
    (h : putLoop lstat isDir s rr l1 = (ev1, none)) :
    putLoop lstat isDir s rr (l1 ++ l2) =
      (ev1 ++ (putLoop lstat isDir s rr l2).1, (putLoop lstat isDir s rr l2).2) := by
  induction l1 generalizing ev1 with
  | nil =>
    simp only [putLoop, Prod.mk.injEq] at h
    simp [h.1.symm]
  | cons p rest ih =>
    simp only [putLoop, List.cons_append] at h ⊢
    cases hpo : putOne lstat isDir s rr p with
    | error err => simp [hpo] at h
    | ok evs =>
      simp only [hpo] at h ⊢
      cases hre : putLoop lstat isDir s rr rest with
      | mk ev2 err2 =>
        simp only [hre, Prod.mk.injEq] at h
        cases h.2
        have hih := ih ev2 hre
        simp only [List.append_eq] at hih ⊢
        rw [hih]
        simp [← h.1, List.append_assoc]

/-- Claim C4: during put, for every directory entry p in the path list, the
engine first stats the remote path; FileNotFoundError leads to a remote mkdir
with mode 0o770; an existing directory gets no mkdir; any other lstat failure
aborts the entire put call as a fatal error (nothing is transferred for p or
for any later element). -/
theorem c4_put_dir_stat_mkdir (lstat : RPath → LStatRes) (isDir isFile : LPath → Bool)
    (s : RPath) (r : LPath) (lp1 lp2 : List LPath) (p : LPath) (ev1 : List PEvent)
    (rel : LPath)
    (h1 : putLoop lstat isDir s (effRoot isFile r) lp1 = (ev1, none))
    (hdir : isDir p = true)
    (hrel : relative_to p (effRoot isFile r) = some rel) :
    (lstat (s ++ rel) = LStatRes.notFound →
      put lstat isDir isFile (lp1 ++ p :: lp2) r s =
        (ev1 ++ PEvent.mkdir (s ++ rel) 0o770 :: PEvent.advance ::
            (putLoop lstat isDir s (effRoot isFile r) lp2).1,
          (putLoop lstat isDir s (effRoot isFile r) lp2).2)) ∧
    (lstat (s ++ rel) = LStatRes.found →
      put lstat isDir isFile (lp1 ++ p :: lp2) r s =
        (ev1 ++ PEvent.advance :: (putLoop lstat isDir s (effRoot isFile r) lp2).1,
          (putLoop lstat isDir s (effRoot isFile r) lp2).2)) ∧
    (lstat (s ++ rel) = LStatRes.otherError →
      put lstat isDir isFile (lp1 ++ p :: lp2) r s = (ev1, some PutErr.lstatError)) := by
  refine ⟨fun hst => ?_, fun hst => ?_, fun hst => ?_⟩ <;>
    rw [put, putLoop_append_ok lstat isDir s (effRoot isFile r) lp1 _ ev1 h1] <;>
    simp [putLoop, putOne, hrel, hdir, hst]

/-- Concrete instance of C4: uploading the single directory r/d to srv when
the remote directory does not exist yet issues exactly a mkdir with mode
0o770 followed by a progress advance. -/
theorem c4_put_dir_stat_mkdir_witness :
    put (fun _ => LStatRes.notFound) (fun p => p == ["r", "d"]) (fun _ => false)
        [["r", "d"]] ["r"] ["srv"] =
      ([PEvent.mkdir ["srv", "d"] 0o770, PEvent.advance], none) := by
  have h := (c4_put_dir_stat_mkdir (fun _ => LStatRes.notFound)
    (fun p => p == ["r", "d"]) (fun _ => false) ["srv"] ["r"] [] [] (["r", "d"]) [] (["d"])
    rfl rfl rfl).1 rfl
  simpa [putLoop] using h

/-- Claim C9: implicit precondition of put — every path in the list must lie
under the resolved root (the root's parent when the root is a file).  A path
outside the root makes put fail with a ValueError at the moment that element
is processed, performing no transfer for that element or any later one. -/
theorem c9_put_root_precondition (lstat : RPath → LStatRes) (isDir isFile : LPath → Bool)
    (s : RPath) (r : LPath) (lp1 lp2 : List LPath) (p : LPath) (ev1 : List PEvent)
    (h1 : putLoop lstat isDir s (effRoot isFile r) lp1 = (ev1, none))
    (hout : ¬ (effRoot isFile r <+: p)) :
    put lstat isDir isFile (lp1 ++ p :: lp2) r s = (ev1, some PutErr.valueError) := by
  rw [put, putLoop_append_ok lstat isDir s (effRoot isFile r) lp1 _ ev1 h1]
  have hpre : (effRoot isFile r).isPrefixOf p = false := by
    cases hb : (effRoot isFile r).isPrefixOf p with
    | false => rfl
    | true => exact absurd (List.isPrefixOf_iff_prefix.mp hb) hout
  simp [putLoop, putOne, relative_to, hpre]

/-- Concrete instance of C9: a put whose first element succeeded and whose
second element lies outside the root aborts with ValueError, keeping only the
first element's events. -/
theorem c9_put_root_precondition_witness :
    put (fun _ => LStatRes.found) (fun _ => false) (fun _ => false)
        [["r", "a.txt"], ["elsewhere", "b.txt"]] ["r"] ["srv"] =
      ([PEvent.putFile ["r", "a.txt"] ["srv", "a.txt"], PEvent.advance],
        some PutErr.valueError) := by
  have h := c9_put_root_precondition (fun _ => LStatRes.found) (fun _ => false)
    (fun _ => false) ["srv"] ["r"] [["r", "a.txt"]] [] (["elsewhere", "b.txt"])
    [PEvent.putFile ["r", "a.txt"] ["srv", "a.txt"], PEvent.advance]
    rfl (by decide)
  simpa using h

/-! ## Server connection state: claim C8 -/

/-- Claim C8: RemoteSession operations are idempotent on connection state.
connect on an already-connected session returns the cached client unchanged
with no authentication; open_sftp on a session with an open channel returns
the cached channel unchanged; close releases both channel and transport on a
fully open session, always leaves the disconnected state, and calling close
again is a no-op. -/
theorem c8_session_idempotence :
    (∀ (st : ServerState) (c fresh : Nat), st.client = some c →
      connect st fresh = (c, st, [])) ∧
    (∀ (st : ServerState) (f fc fs : Nat), st.sftp = some f →
      open_sftp st fc fs = (f, st, [])) ∧
    (∀ c f : Nat, close ⟨some c, some f⟩ =
      (⟨none, none⟩, [ConnEvent.closeChannel, ConnEvent.closeTransport])) ∧
    (∀ st : ServerState, (close st).1 = ⟨none, none⟩) ∧
    close ⟨none, none⟩ = (⟨none, none⟩, []) := by
  refine ⟨?_, ?_, ?_, ?_, rfl⟩
  · intro st c fresh h
    cases st with
    | mk cl sf => cases h; rfl
  · intro st f fc fs h
    cases st with
    | mk cl sf => cases h; rfl
  · intro c f; rfl
  · intro st
    cases st with
    | mk cl sf => cases cl <;> cases sf <;> rfl

/-- Concrete instance of C8: a second connect returns the cached client 7
without authenticating, and a second close after closing a fully open
session performs nothing. -/
theorem c8_session_idempotence_witness :
    connect ⟨some 7, none⟩ 9 = (7, ⟨some 7, none⟩, []) ∧
    open_sftp ⟨some 7, some 3⟩ 9 10 = (3, ⟨some 7, some 3⟩, []) ∧
    close (close ⟨some 7, some 3⟩).1 = (⟨none, none⟩, []) := by
  refine ⟨c8_session_idempotence.1 ⟨some 7, none⟩ 7 9 rfl,
    c8_session_idempotence.2.1 ⟨some 7, some 3⟩ 3 9 10 rfl, ?_⟩
  rw [(c8_session_idempotence.2.2.2.1 ⟨some 7, some 3⟩ : _)]
  exact c8_session_idempotence.2.2.2.2

/-! ## Structure of the local walk output -/

theorem mem_levelDirPaths {isDir : LPath → Bool} {e i : List LPath} {r q : LPath}
    {entries : List Entry} :
    q ∈ levelDirPaths isDir e i r entries ↔
      ∃ n cs, Entry.dir n cs ∈ entries ∧ dirDecision isDir e i (r ++ [n]) = true ∧
        q = r ++ [n] := by
  simp only [levelDirPaths, List.mem_filterMap]
  constructor
  · rintro ⟨en, hen, hmatch⟩
    cases en with
    | file nm => simp at hmatch
    | dir nm cs =>
      simp only at hmatch
      split at hmatch
      · exact ⟨nm, cs, hen, by assumption, (Option.some.injEq _ _ ▸ hmatch).symm⟩
      · simp at hmatch
  · rintro ⟨n, cs, hmem, hdec, rfl⟩
    exact ⟨Entry.dir n cs, hmem, by simp [hdec]⟩

theorem mem_levelFilePaths {isDir : LPath → Bool} {e i : List LPath} {r q : LPath}
    {entries : List Entry} :
    q ∈ levelFilePaths isDir e i r entries ↔
      ∃ n, Entry.file n ∈ entries ∧ fileDecision isDir e i (r ++ [n]) = true ∧
        q = r ++ [n] := by
  simp only [levelFilePaths, List.mem_filterMap]
  constructor
  · rintro ⟨en, hen, hmatch⟩
    cases en with
    | dir nm cs => simp at hmatch
    | file nm =>
      simp only at hmatch
      split at hmatch
      · exact ⟨nm, hen, by assumption, (Option.some.injEq _ _ ▸ hmatch).symm⟩
      · simp at hmatch
  · rintro ⟨n, hmem, hdec, rfl⟩
    exact ⟨Entry.file n, hmem, by simp [hdec]⟩

theorem walkSubdirs_nil (isDir : LPath → Bool) (e i : List LPath) (r : LPath) :
    walkSubdirs isDir e i r [] = [] := by
  simp [walkSubdirs]

theorem walkSubdirs_cons_file (isDir : LPath → Bool) (e i : List LPath) (r : LPath)
    (nm : String) (rest : List Entry) :
    walkSubdirs isDir e i r (Entry.file nm :: rest) = walkSubdirs isDir e i r rest := by
  simp [walkSubdirs]

theorem walkSubdirs_cons_dir (isDir : LPath → Bool) (e i : List LPath) (r : LPath)
    (nm : String) (cs rest : List Entry) :
    walkSubdirs isDir e i r (Entry.dir nm cs :: rest) =
      if dirDecision isDir e i (r ++ [nm]) then
        paths_to_deploy isDir e i (r ++ [nm]) cs ++ walkSubdirs isDir e i r rest
      else walkSubdirs isDir e i r rest := by
  simp [walkSubdirs]

/-- Every path produced by the walk strictly extends the directory it was
produced under; every path produced by the subdirectory recursion extends
some kept subdirectory of the level. -/
theorem walk_mem_aux : ∀ (N : Nat) (entries : List Entry), sizeOf entries ≤ N →
    ∀ (isDir : LPath → Bool) (e i : List LPath) (r q : LPath),
      (q ∈ paths_to_deploy isDir e i r entries → r <+: q ∧ r.length < q.length) ∧
      (q ∈ walkSubdirs isDir e i r entries →
        ∃ n cs, Entry.dir n cs ∈ entries ∧ dirDecision isDir e i (r ++ [n]) = true ∧
          (r ++ [n]) <+: q ∧ (r ++ [n]).length < q.length) := by
  intro N
  induction N with
  | zero =>
    intro entries h
    exfalso
    cases entries <;> simp at h
  | succ N ihN =>
    intro entries hsz isDir e i r q
    have hws : q ∈ walkSubdirs isDir e i r entries →
        ∃ n cs, Entry.dir n cs ∈ entries ∧ dirDecision isDir e i (r ++ [n]) = true ∧
          (r ++ [n]) <+: q ∧ (r ++ [n]).length < q.length := by
      cases entries with
      | nil => intro h; simp [walkSubdirs] at h
      | cons en rest =>
        cases en with
        | file nm =>
          have hrest : sizeOf rest ≤ N := by simp at hsz; omega
          intro h
          rw [walkSubdirs_cons_file] at h
          obtain ⟨n, cs, hmem, hrest2⟩ := (ihN rest hrest isDir e i r q).2 h
          exact ⟨n, cs, List.mem_cons_of_mem _ hmem, hrest2⟩
        | dir nm cs =>
          have hrest : sizeOf rest ≤ N := by simp at hsz; omega
          have hcs : sizeOf cs ≤ N := by simp at hsz; omega
          intro h
          rw [walkSubdirs_cons_dir] at h
          split at h
          next hdec =>
            rcases List.mem_append.mp h with h1 | h2
            · have hp := (ihN cs hcs isDir e i (r ++ [nm]) q).1 h1
              exact ⟨nm, cs, List.mem_cons_self _ _, hdec, hp.1, hp.2⟩
            · obtain ⟨n, cs2, hmem, hr⟩ := (ihN rest hrest isDir e i r q).2 h2
              exact ⟨n, cs2, List.mem_cons_of_mem _ hmem, hr⟩
          next hdec =>
            obtain ⟨n, cs2, hmem, hr⟩ := (ihN rest hrest isDir e i r q).2 h
            exact ⟨n, cs2, List.mem_cons_of_mem _ hmem, hr⟩
    refine ⟨?_, hws⟩
    intro h
    simp only [paths_to_deploy, List.append_assoc, List.mem_append] at h
    rcases h with h1 | h2 | h3
    · obtain ⟨n, cs, hmem, hdec, rfl⟩ := mem_levelDirPaths.mp h1
      exact ⟨List.prefix_append r [n], by simp⟩
    · obtain ⟨n, hmem, hdec, rfl⟩ := mem_levelFilePaths.mp h2
      exact ⟨List.prefix_append r [n], by simp⟩
    · obtain ⟨n, cs, hmem, hdec, hpre, hlen⟩ := hws h3
      refine ⟨(List.prefix_append r [n]).trans hpre, ?_⟩
      simp at hlen
      omega

/-- Key pruning lemma: if q is produced by the walk below r, then every
strictly intermediate directory path D between r and q was kept by the
directory filter (otherwise the walk would not have descended into D). -/
theorem walk_ancestor_kept : ∀ (N : Nat) (entries : List Entry), sizeOf entries ≤ N →
    ∀ (isDir : LPath → Bool) (e i : List LPath) (r q : LPath),
      (q ∈ paths_to_deploy isDir e i r entries →
        ∀ D, Beneath r D → Beneath D q → dirDecision isDir e i D = true) ∧
      (q ∈ walkSubdirs isDir e i r entries →
        ∀ D, Beneath r D → Beneath D q → dirDecision isDir e i D = true) := by
  intro N
  induction N with
  | zero =>
    intro entries h
    exfalso
    cases entries <;> simp at h
  | succ N ihN =>
    intro entries hsz isDir e i r q
    have hws : q ∈ walkSubdirs isDir e i r entries →
        ∀ D, Beneath r D → Beneath D q → dirDecision isDir e i D = true := by
      cases entries with
      | nil => intro h; simp [walkSubdirs] at h
      | cons en rest =>
        cases en with
        | file nm =>
          have hrest : sizeOf rest ≤ N := by simp at hsz; omega
          intro h
          rw [walkSubdirs_cons_file] at h
          exact (ihN rest hrest isDir e i r q).2 h
        | dir nm cs =>
          have hrest : sizeOf rest ≤ N := by simp at hsz; omega
          have hcs : sizeOf cs ≤ N := by simp at hsz; omega
          intro h
          rw [walkSubdirs_cons_dir] at h
          split at h
          next hdec =>
            rcases List.mem_append.mp h with h1 | h2
            · intro D hrD hDq
              have hq := (walk_mem_aux (N + 1) cs (by omega) isDir e i (r ++ [nm]) q).1 h1
              rcases Nat.lt_or_ge (r.length + 1) D.length with hlong | hshort
              · -- D lies strictly below r ++ [nm]
                have hband : Beneath (r ++ [nm]) D := by
                  refine beneath_of_prefix_lt ?_ hDq.1 ?_
                  · exact hq.1
                  · simpa using hlong
                exact (ihN cs hcs isDir e i (r ++ [nm]) q).1 h1 D hband hDq
              · -- D has length r.length + 1, hence D = r ++ [nm]
                have hDlen : D.length = r.length + 1 := by
                  have := hrD.length_lt
                  omega
                have hDeq : D = r ++ [nm] := by
                  refine prefix_eq_of_length_eq hDq.1 hq.1 ?_
                  simp [hDlen]
                rw [hDeq]
                exact hdec
            · exact (ihN rest hrest isDir e i r q).2 h2
          next hdec =>
            exact (ihN rest hrest isDir e i r q).2 h
    refine ⟨?_, hws⟩
    intro h
    simp only [paths_to_deploy, List.append_assoc, List.mem_append] at h
    rcases h with h1 | h2 | h3
    · obtain ⟨n, cs, hmem, hdec, rfl⟩ := mem_levelDirPaths.mp h1
      intro D hrD hDq
      exfalso
      have h1 := hrD.length_lt
      have h2 := hDq.length_lt
      simp at h2
      omega
    · obtain ⟨n, hmem, hdec, rfl⟩ := mem_levelFilePaths.mp h2
      intro D hrD hDq
      exfalso
      have h1 := hrD.length_lt
      have h2 := hDq.length_lt
      simp at h2
      omega
    · exact hws h3

theorem walkSubdirs_superset (isDir : LPath → Bool) (e i : List LPath) (r : LPath)
    (n : String) (cs : List Entry) :
    ∀ (entries : List Entry), Entry.dir n cs ∈ entries →
      dirDecision isDir e i (r ++ [n]) = true →
      ∀ q ∈ paths_to_deploy isDir e i (r ++ [n]) cs,
        q ∈ walkSubdirs isDir e i r entries := by
  intro entries
  induction entries with
  | nil => intro h; simp at h
  | cons en rest ih =>
    intro hmem hdec q hq
    rcases List.mem_cons.mp hmem with heq | htail
    · rw [← heq, walkSubdirs_cons_dir, if_pos hdec]
      exact List.mem_append_left _ hq
    · have hq2 := ih htail hdec q hq
      cases en with
      | file nm => rw [walkSubdirs_cons_file]; exact hq2
      | dir nm cs2 =>
        rw [walkSubdirs_cons_dir]
        split
        · exact List.mem_append_right _ hq2
        · exact hq2

/-! ## Claim C2: precedence of inclusion and exclusion for directories -/

/-- Claim C2 as stated is false on the code: the directory loop of
paths_to_deploy consults the include set FIRST.  Here the directory root/sub
matches the exclude set and is simultaneously a member of the include set;
the claim says it must be pruned (excluded and not descended into), but the
walk returns it and descends into it (its child file is also returned). -/
theorem c2_claim_counterexample :
    is_in_path (fun p => p == ["root", "sub"]) ["root", "sub"] [["root", "sub"]] = true ∧
    is_in_path (fun p => p == ["root", "sub"]) ["root", "sub"] [["root", "sub"]] = true ∧
    ["root", "sub"] ∈ paths_to_deploy (fun p => p == ["root", "sub"])
      [["root", "sub"]] [["root", "sub"]] ["root"]
      [Entry.dir "sub" [Entry.file "f.txt"]] ∧
    ["root", "sub", "f.txt"] ∈ paths_to_deploy (fun p => p == ["root", "sub"])
      [["root", "sub"]] [["root", "sub"]] ["root"]
      [Entry.dir "sub" [Entry.file "f.txt"]] := by
  refine ⟨by decide, by decide, ?_, ?_⟩ <;>
    simp +decide [paths_to_deploy, walkSubdirs, levelDirPaths, levelFilePaths,
      dirDecision, fileDecision, is_in_path, inParents]

/-- Claim C2, amended: the directory filter of the walk evaluates INCLUSION
before exclusion.  A candidate directory that is a member of the include set
is appended to the result and descended into even when it matches the exclude
set, has a dot-prefixed name, or has a default-excluded name; the exclusion
conditions decide the outcome only when the inclusion check has not fired. -/
theorem c2_amended_include_precedence (isDir : LPath → Bool) (e i : List LPath) :
    (∀ dp : LPath, dirDecision isDir e i dp =
      (is_in_path isDir dp i ||
        !(is_in_path isDir dp e || (pathName dp).startsWith dotStr
          || decide (pathName dp ∈ EXCLUDE_DIRNAMES)))) ∧
    (∀ (r : LPath) (entries : List Entry) (n : String) (cs : List Entry),
      Entry.dir n cs ∈ entries → is_in_path isDir (r ++ [n]) i = true →
        (r ++ [n]) ∈ paths_to_deploy isDir e i r entries ∧
        ∀ q ∈ paths_to_deploy isDir e i (r ++ [n]) cs,
          q ∈ paths_to_deploy isDir e i r entries) := by
  constructor
  · intro dp
    cases h1 : is_in_path isDir dp i <;>
      cases h2 : (is_in_path isDir dp e || (pathName dp).startsWith dotStr
        || decide (pathName dp ∈ EXCLUDE_DIRNAMES)) <;>
      simp [dirDecision, h1, h2]
  · intro r entries n cs hmem hinc
    have hdec : dirDecision isDir e i (r ++ [n]) = true := by
      simp [dirDecision, hinc]
    constructor
    · simp only [paths_to_deploy, List.append_assoc, List.mem_append]
      exact Or.inl (mem_levelDirPaths.mpr ⟨n, cs, hmem, hdec, rfl⟩)
    · intro q hq
      simp only [paths_to_deploy, List.append_assoc, List.mem_append]
      exact Or.inr (Or.inr (walkSubdirs_superset isDir e i r n cs entries hmem hdec q hq))

/-- Concrete instance of the amended C2: the directory root/sub, member of
both the include set and the exclude set, is returned by the walk. -/
theorem c2_amended_include_precedence_witness :
    Entry.dir "sub" [Entry.file "f.txt"] ∈ [Entry.dir "sub" [Entry.file "f.txt"]] ∧
    is_in_path (fun p => p == ["root", "sub"]) ["root", "sub"] [["root", "sub"]] = true ∧
    ["root", "sub"] ∈ paths_to_deploy (fun p => p == ["root", "sub"])
      [["root", "sub"]] [["root", "sub"]] ["root"] [Entry.dir "sub" [Entry.file "f.txt"]] :=
  ⟨by simp, by decide,
    ((c2_amended_include_precedence (fun p => p == ["root", "sub"])
      [["root", "sub"]] [["root", "sub"]]).2 ["root"]
      [Entry.dir "sub" [Entry.file "f.txt"]] "sub" [Entry.file "f.txt"]
      (by simp) (by decide)).1⟩

/-! ## Claim C6: name-based exclusion never applies to files -/

/-- Claim C6: for a file reached by the walk (its directory level was
reached), the walk appends it whenever its path does not match the explicit
exclude set — regardless of its name, so dot-prefixed names and
default-excluded directory names do not exclude files — and a reached file
that is missing from the result necessarily matches the explicit exclude
set. -/
theorem c6_file_name_rules (isDir : LPath → Bool) (e i : List LPath) (r : LPath)
    (entries : List Entry) (fn : String) (hmem : Entry.file fn ∈ entries) :
    (is_in_path isDir (r ++ [fn]) e = false →
      (r ++ [fn]) ∈ paths_to_deploy isDir e i r entries) ∧
    ((r ++ [fn]) ∉ paths_to_deploy isDir e i r entries →
      is_in_path isDir (r ++ [fn]) e = true) := by
  have hin : is_in_path isDir (r ++ [fn]) e = false →
      (r ++ [fn]) ∈ paths_to_deploy isDir e i r entries := by
    intro he
    have hdec : fileDecision isDir e i (r ++ [fn]) = true := by
      cases hi : is_in_path isDir (r ++ [fn]) i <;> simp [fileDecision, hi, he]
    simp only [paths_to_deploy, List.append_assoc, List.mem_append]
    exact Or.inr (Or.inl (mem_levelFilePaths.mpr ⟨fn, hmem, hdec, rfl⟩))
  refine ⟨hin, ?_⟩
  intro hnm
  cases he : is_in_path isDir (r ++ [fn]) e with
  | false => exact absurd (hin he) hnm
  | true => rfl

/-- Concrete instance of C6: a file named .env — a dot name, which would
prune a directory — is still returned by the walk. -/
theorem c6_file_name_rules_witness :
    ["r", ".env"] ∈ paths_to_deploy (fun _ => false) [] [] ["r"] [Entry.file ".env"] :=
  (c6_file_name_rules (fun _ => false) [] [] ["r"] [Entry.file ".env"] ".env"
    (by simp)).1 (by decide)

/-! ## Claim C1: an excluded ancestor directory blocks descent -/

/-- Claim C1 as stated is false on the code: here the path
P = root/node_modules/x.js is a member of the include set, and its ancestor
directory D = root/node_modules (strictly between the root and P) matches the
default-excluded-name rule; the claim says P can never be in the returned
list, but when D is itself a member of the include set the walk descends into
D and returns P. -/
theorem c1_claim_counterexample :
    is_in_path (fun _ => false) ["root", "node_modules", "x.js"]
      [["root", "node_modules"], ["root", "node_modules", "x.js"]] = true ∧
    Beneath ["root"] ["root", "node_modules"] ∧
    Beneath ["root", "node_modules"] ["root", "node_modules", "x.js"] ∧
    decide (pathName ["root", "node_modules"] ∈ EXCLUDE_DIRNAMES) = true ∧
    ["root", "node_modules", "x.js"] ∈ paths_to_deploy (fun _ => false) []
      [["root", "node_modules"], ["root", "node_modules", "x.js"]] ["root"]
      [Entry.dir "node_modules" [Entry.file "x.js"]] := by
  refine ⟨by decide, by decide, by decide, by decide, ?_⟩
  simp +decide [paths_to_deploy, walkSubdirs, levelDirPaths, levelFilePaths,
    dirDecision, fileDecision, is_in_path, inParents]

/-- Claim C1, amended: a path P that is a member of the include set but has
an ancestor directory D (strictly between the root and P) that matches an
exclusion condition — an exclude-set match, a dot-prefixed name, or a
default-excluded directory name — AND is not itself a member of the include
set, is never present in the list returned by the walk, because traversal
never descends into D. -/
theorem c1_amended_ancestor_pruning (isDir : LPath → Bool) (e i : List LPath)
    (r : LPath) (entries : List Entry) (P D : LPath)
    (hPinc : is_in_path isDir P i = true)
    (hrD : Beneath r D) (hDP : Beneath D P)
    (hDninc : is_in_path isDir D i = false)
    (hDexc : (is_in_path isDir D e || (pathName D).startsWith dotStr
      || decide (pathName D ∈ EXCLUDE_DIRNAMES)) = true) :
    P ∉ paths_to_deploy isDir e i r entries := by
  intro hmem
  have hkept := (walk_ancestor_kept (sizeOf entries) entries le_rfl isDir e i r P).1
    hmem D hrD hDP
  rw [dirDecision, hDninc, hDexc] at hkept
  simp at hkept

/-- Concrete instance of the amended C1: the include set contains only the
file root/node_modules/x.js; the walk prunes node_modules and the included
file never appears (end-to-end scenario 2 of the specification). -/
theorem c1_amended_ancestor_pruning_witness :
    is_in_path (fun _ => false) ["root", "node_modules", "x.js"]
      [["root", "node_modules", "x.js"]] = true ∧
    ["root", "node_modules", "x.js"] ∉ paths_to_deploy (fun _ => false) []
      [["root", "node_modules", "x.js"]] ["root"]
      [Entry.dir "node_modules" [Entry.file "x.js"]] :=
  ⟨by decide,
    c1_amended_ancestor_pruning (fun _ => false) [] [["root", "node_modules", "x.js"]]
      ["root"] [Entry.dir "node_modules" [Entry.file "x.js"]]
      ["root", "node_modules", "x.js"] ["root", "node_modules"]
      (by decide) (by decide) (by decide) (by decide)
      (by simp +decide [is_in_path, inParents, pathName, EXCLUDE_DIRNAMES])⟩

/-! ## Claim C7: ordering of the upload plan -/

theorem WfEntries.nodup {entries : List Entry} (h : WfEntries entries) :
    (entries.map Entry.name).Nodup := by
  cases h with
  | mk hn hs => exact hn

theorem WfEntries.children {entries : List Entry} {n : String} {cs : List Entry}
    (h : WfEntries entries) (hmem : Entry.dir n cs ∈ entries) : WfEntries cs := by
  cases h with
  | mk hn hs => exact hs n cs hmem

theorem WfEntries.tail {en : Entry} {rest : List Entry} (h : WfEntries (en :: rest)) :
    WfEntries rest := by
  cases h with
  | mk hn hs =>
    exact WfEntries.mk (by simpa using (List.nodup_cons.mp (by simpa using hn)).2)
      (fun n cs hmem => hs n cs (List.mem_cons_of_mem _ hmem))

theorem WfEntries.head_name {n : String} {cs rest : List Entry}
    (h : WfEntries (Entry.dir n cs :: rest)) : n ∉ rest.map Entry.name := by
  cases h with
  | mk hn hs => exact (List.nodup_cons.mp (by simpa using hn)).1

/-- No element of the walk output is preceded by an element lying strictly
beneath it: the pairwise no-later-ancestor property of the upload plan, for
well-formed local trees. -/
theorem walk_pairwise : ∀ (N : Nat) (entries : List Entry), sizeOf entries ≤ N →
    ∀ (isDir : LPath → Bool) (e i : List LPath) (r : LPath), WfEntries entries →
      List.Pairwise (fun a b => ¬ Beneath b a) (paths_to_deploy isDir e i r entries) ∧
      List.Pairwise (fun a b => ¬ Beneath b a) (walkSubdirs isDir e i r entries) := by
  intro N
  induction N with
  | zero =>
    intro entries h
    exfalso
    cases entries <;> simp at h
  | succ N ihN =>
    intro entries hsz isDir e i r hwf
    have hws : List.Pairwise (fun a b => ¬ Beneath b a)
        (walkSubdirs isDir e i r entries) := by
      cases entries with
      | nil => simp [walkSubdirs]
      | cons en rest =>
        cases en with
        | file nm =>
          have hrest : sizeOf rest ≤ N := by simp at hsz; omega
          rw [walkSubdirs_cons_file]
          exact (ihN rest hrest isDir e i r hwf.tail).2
        | dir nm cs =>
          have hrest : sizeOf rest ≤ N := by simp at hsz; omega
          have hcs : sizeOf cs ≤ N := by simp at hsz; omega
          rw [walkSubdirs_cons_dir]
          split
          next hdec =>
            rw [List.pairwise_append]
            refine ⟨(ihN cs hcs isDir e i (r ++ [nm])
                (hwf.children (List.mem_cons_self _ _))).1,
              (ihN rest hrest isDir e i r hwf.tail).2, ?_⟩
            intro a ha b hb hba
            have hpa := (walk_mem_aux (sizeOf cs) cs le_rfl isDir e i (r ++ [nm]) a).1 ha
            obtain ⟨n2, cs2, hmem2, hdec2, hpb, hlb⟩ :=
              (walk_mem_aux (sizeOf rest) rest le_rfl isDir e i r b).2 hb
            -- b <+: a forces the level names nm and n2 to coincide,
            -- contradicting sibling-name distinctness
            have hb_pre_a : (r ++ [n2]) <+: a := hpb.trans hba.1
            have heq : (r ++ [n2]) = (r ++ [nm]) :=
              prefix_eq_of_length_eq hb_pre_a hpa.1 (by simp)
            have hn2 : n2 = nm := by simpa using heq
            exact absurd (hn2 ▸ (List.mem_map_of_mem Entry.name hmem2 :
              Entry.name (Entry.dir n2 cs2) ∈ rest.map Entry.name)) hwf.head_name
          next =>
            exact (ihN rest hrest isDir e i r hwf.tail).2
    refine ⟨?_, hws⟩
    have hlevlen : ∀ q ∈ levelDirPaths isDir e i r entries ++
        levelFilePaths isDir e i r entries, q.length = r.length + 1 := by
      intro q hq
      rcases List.mem_append.mp hq with h1 | h2
      · obtain ⟨n, cs, hmem, hdec, rfl⟩ := mem_levelDirPaths.mp h1
        simp
      · obtain ⟨n, hmem, hdec, rfl⟩ := mem_levelFilePaths.mp h2
        simp
    have hlevpw : List.Pairwise (fun a b => ¬ Beneath b a)
        (levelDirPaths isDir e i r entries ++ levelFilePaths isDir e i r entries) := by
      refine List.pairwise_of_forall_mem_list ?_
      intro a ha b hb hba
      have h1 := hlevlen a ha
      have h2 := hlevlen b hb
      have := hba.length_lt
      omega
    simp only [paths_to_deploy]
    rw [List.pairwise_append]
    refine ⟨hlevpw, hws, ?_⟩
    intro a ha b hb hba
    obtain ⟨n2, cs2, hmem2, hdec2, hpb, hlb⟩ :=
      (walk_mem_aux (sizeOf entries) entries le_rfl isDir e i r b).2 hb
    have h1 := hlevlen a ha
    have hblen : r.length + 1 < b.length := by simp at hlb; omega
    have := hba.length_lt
    have := hba.1.length_le
    omega

/-- Claim C7 as stated is false on the code: there is NO well-formed
filesystem state and exclude/include sets for which the returned list places
an entry before an ancestor of that entry — in particular never a file before
an ancestor directory of that file. -/
theorem c7_claim_counterexample :
    ¬ ∃ (isDir : LPath → Bool) (e i : List LPath) (r : LPath) (entries : List Entry),
      WfEntries entries ∧
      ∃ (a b : Fin (paths_to_deploy isDir e i r entries).length),
        a < b ∧ Beneath ((paths_to_deploy isDir e i r entries).get b)
          ((paths_to_deploy isDir e i r entries).get a) := by
  rintro ⟨isDir, e, i, r, entries, hwf, a, b, hab, hben⟩
  have hpw := (walk_pairwise (sizeOf entries) entries le_rfl isDir e i r hwf).1
  exact List.pairwise_iff_get.mp hpw a b hab hben

/-- Claim C7, amended: for every well-formed filesystem state and any
exclude/include sets, the ordering of the list returned by the walk DOES
guarantee that every entry precedes all returned entries beneath it — no
returned path is preceded by a path strictly beneath it, so in particular a
file never precedes an ancestor directory of that file.  (The engine's
stat-then-mkdir-if-absent directory creation is therefore compatible with the
ordering, not forced by its absence.) -/
theorem c7_amended_order_guarantee (isDir : LPath → Bool) (e i : List LPath)
    (r : LPath) (entries : List Entry) (hwf : WfEntries entries) :
    ∀ (a b : Fin (paths_to_deploy isDir e i r entries).length), a < b →
      ¬ Beneath ((paths_to_deploy isDir e i r entries).get b)
        ((paths_to_deploy isDir e i r entries).get a) := by
  intro a b hab
  exact List.pairwise_iff_get.mp
    ((walk_pairwise (sizeOf entries) entries le_rfl isDir e i r hwf).1) a b hab

/-- Concrete instance of the amended C7, on the tree r/sub/f. -/
theorem c7_amended_order_guarantee_witness :
    WfEntries [Entry.dir "sub" [Entry.file "f"]] ∧
    ∀ (a b : Fin (paths_to_deploy (fun _ => false) [] [] ["r"]
        [Entry.dir "sub" [Entry.file "f"]]).length), a < b →
      ¬ Beneath ((paths_to_deploy (fun _ => false) [] [] ["r"]
          [Entry.dir "sub" [Entry.file "f"]]).get b)
        ((paths_to_deploy (fun _ => false) [] [] ["r"]
          [Entry.dir "sub" [Entry.file "f"]]).get a) := by
  have hwf : WfEntries [Entry.dir "sub" [Entry.file "f"]] := by
    refine WfEntries.mk (by simp) ?_
    intro n cs hmem
    simp only [List.mem_singleton, Entry.dir.injEq] at hmem
    rcases hmem with ⟨rfl, rfl⟩
    refine WfEntries.mk (by simp) ?_
    intro n cs hmem
    simp at hmem
  exact ⟨hwf, c7_amended_order_guarantee (fun _ => false) [] [] ["r"]
    [Entry.dir "sub" [Entry.file "f"]] hwf⟩

/-! ## Unfolding and structure of walk_remote -/

theorem walk_remote_nil (s : RPath) (r : LPath) (e : List RPath) (sp : RPath)
    (lp : List TransferPath) : walk_remote s r e sp [] lp = lp := by
  simp [walk_remote]

theorem walk_remote_cons_none (s : RPath) (r : LPath) (e : List RPath) (sp : RPath)
    (fn : String) (cs rest : List RItem) (lp : List TransferPath) :
    walk_remote s r e sp (RItem.mk fn none cs :: rest) lp =
      walk_remote s r e sp rest (lp ++
        [⟨r ++ (sp ++ [fn]).drop s.length, (sp ++ [fn]).drop s.length,
          sp ++ [fn], none⟩]) := by
  simp [walk_remote]

theorem walk_remote_cons_dir_kept (s : RPath) (r : LPath) (e : List RPath) (sp : RPath)
    (fn : String) (m : Nat) (cs rest : List RItem) (lp : List TransferPath)
    (hm : S_ISDIR m = true)
    (hskip : (decide ((sp ++ [fn]).drop s.length ∈ e) || fn.startsWith dotStr
      || decide (fn ∈ EXCLUDE_DIRNAMES)) = false) :
    walk_remote s r e sp (RItem.mk fn (some m) cs :: rest) lp =
      walk_remote s r e sp rest
        (walk_remote s r e (sp ++ [fn]) cs (lp ++
          [⟨r ++ (sp ++ [fn]).drop s.length, (sp ++ [fn]).drop s.length,
            sp ++ [fn], some m⟩])) := by
  simp only [walk_remote, hm, hskip]
  simp

theorem walk_remote_cons_dir_pruned (s : RPath) (r : LPath) (e : List RPath) (sp : RPath)
    (fn : String) (m : Nat) (cs rest : List RItem) (lp : List TransferPath)
    (hm : S_ISDIR m = true)
    (hskip : (decide ((sp ++ [fn]).drop s.length ∈ e) || fn.startsWith dotStr
      || decide (fn ∈ EXCLUDE_DIRNAMES)) = true) :
    walk_remote s r e sp (RItem.mk fn (some m) cs :: rest) lp =
      walk_remote s r e sp rest lp := by
  simp only [walk_remote, hm, hskip]
  simp

theorem walk_remote_cons_reg_kept (s : RPath) (r : LPath) (e : List RPath) (sp : RPath)
    (fn : String) (m : Nat) (cs rest : List RItem) (lp : List TransferPath)
    (hmd : S_ISDIR m = false) (hmr : S_ISREG m = true)
    (he : decide ((sp ++ [fn]).drop s.length ∈ e) = false) :
    walk_remote s r e sp (RItem.mk fn (some m) cs :: rest) lp =
      walk_remote s r e sp rest (lp ++
        [⟨r ++ (sp ++ [fn]).drop s.length, (sp ++ [fn]).drop s.length,
          sp ++ [fn], some m⟩]) := by
  simp only [walk_remote, hmd, hmr, he]
  simp

theorem walk_remote_cons_reg_skipped (s : RPath) (r : LPath) (e : List RPath) (sp : RPath)
    (fn : String) (m : Nat) (cs rest : List RItem) (lp : List TransferPath)
    (hmd : S_ISDIR m = false) (hmr : S_ISREG m = true)
    (he : decide ((sp ++ [fn]).drop s.length ∈ e) = true) :
    walk_remote s r e sp (RItem.mk fn (some m) cs :: rest) lp =
      walk_remote s r e sp rest lp := by
  simp only [walk_remote, hmd, hmr, he]
  simp

theorem walk_remote_cons_other (s : RPath) (r : LPath) (e : List RPath) (sp : RPath)
    (fn : String) (m : Nat) (cs rest : List RItem) (lp : List TransferPath)
    (hmd : S_ISDIR m = false) (hmr : S_ISREG m = false) :
    walk_remote s r e sp (RItem.mk fn (some m) cs :: rest) lp =
      walk_remote s r e sp rest lp := by
  simp only [walk_remote, hmd, hmr]
  simp

/-- The accumulator of walk_remote is purely prepended: the scan of items
appends its discoveries after whatever lp already holds. -/
theorem walk_remote_append : ∀ (N : Nat) (items : List RItem), sizeOf items ≤ N →
    ∀ (s : RPath) (r : LPath) (e : List RPath) (sp : RPath) (lp : List TransferPath),
      walk_remote s r e sp items lp = lp ++ walk_remote s r e sp items [] := by
  intro N
  induction N with
  | zero =>
    intro items h
    exfalso
    cases items <;> simp at h
  | succ N ihN =>
    intro items hsz s r e sp lp
    cases items with
    | nil => simp [walk_remote_nil]
    | cons it rest =>
      cases it with
      | mk fn sm cs =>
        have hrest : sizeOf rest ≤ N := by simp at hsz; omega
        have hcs : sizeOf cs ≤ N := by simp at hsz; omega
        cases sm with
        | none =>
          rw [walk_remote_cons_none, walk_remote_cons_none,
            ihN rest hrest s r e sp, ihN rest hrest s r e sp ([] ++ _)]
          simp
        | some m =>
          cases hm : S_ISDIR m with
          | true =>
            cases hskip : (decide ((sp ++ [fn]).drop s.length ∈ e)
                || fn.startsWith dotStr || decide (fn ∈ EXCLUDE_DIRNAMES)) with
            | true =>
              rw [walk_remote_cons_dir_pruned _ _ _ _ _ _ _ _ _ hm hskip,
                walk_remote_cons_dir_pruned _ _ _ _ _ _ _ _ _ hm hskip,
                ihN rest hrest s r e sp lp]
            | false =>
              rw [walk_remote_cons_dir_kept _ _ _ _ _ _ _ _ _ hm hskip,
                walk_remote_cons_dir_kept _ _ _ _ _ _ _ _ _ hm hskip,
                ihN rest hrest s r e sp, ihN rest hrest s r e sp
                  (walk_remote s r e (sp ++ [fn]) cs ([] ++ _)),
                ihN cs hcs s r e (sp ++ [fn]) (lp ++ _),
                ihN cs hcs s r e (sp ++ [fn]) ([] ++ _)]
              simp
          | false =>
            cases hr : S_ISREG m with
            | true =>
              cases he : decide ((sp ++ [fn]).drop s.length ∈ e) with
              | true =>
                rw [walk_remote_cons_reg_skipped _ _ _ _ _ _ _ _ _ hm hr he,
                  walk_remote_cons_reg_skipped _ _ _ _ _ _ _ _ _ hm hr he,
                  ihN rest hrest s r e sp lp]
              | false =>
                rw [walk_remote_cons_reg_kept _ _ _ _ _ _ _ _ _ hm hr he,
                  walk_remote_cons_reg_kept _ _ _ _ _ _ _ _ _ hm hr he,
                  ihN rest hrest s r e sp, ihN rest hrest s r e sp ([] ++ _)]
                simp
            | false =>
              rw [walk_remote_cons_other _ _ _ _ _ _ _ _ _ hm hr,
                walk_remote_cons_other _ _ _ _ _ _ _ _ _ hm hr,
                ihN rest hrest s r e sp lp]

/-- Every transfer path discovered by scanning items below sp extends
sp ++ [fn] for the filename fn of some listed item. -/
theorem walk_remote_mem_aux : ∀ (N : Nat) (items : List RItem), sizeOf items ≤ N →
    ∀ (s : RPath) (r : LPath) (e : List RPath) (sp : RPath) (tp : TransferPath),
      tp ∈ walk_remote s r e sp items [] →
      ∃ fn sm cs, RItem.mk fn sm cs ∈ items ∧ (sp ++ [fn]) <+: tp.remote := by
  intro N
  induction N with
  | zero =>
    intro items h
    exfalso
    cases items <;> simp at h
  | succ N ihN =>
    intro items hsz s r e sp tp hmem
    cases items with
    | nil => rw [walk_remote_nil] at hmem; simp at hmem
    | cons it rest =>
      cases it with
      | mk fn sm cs =>
        have hrest : sizeOf rest ≤ N := by simp at hsz; omega
        have hcs : sizeOf cs ≤ N := by simp at hsz; omega
        have htail : ∀ lp0 : List TransferPath,
            tp ∈ walk_remote s r e sp rest lp0 →
            tp ∈ lp0 ∨ ∃ fn2 sm2 cs2, RItem.mk fn2 sm2 cs2 ∈ rest ∧
              (sp ++ [fn2]) <+: tp.remote := by
          intro lp0 h
          rw [walk_remote_append N rest hrest s r e sp lp0] at h
          rcases List.mem_append.mp h with h | h
          · exact Or.inl h
          · obtain ⟨fn2, sm2, cs2, hm2, hp2⟩ := ihN rest hrest s r e sp tp h
            exact Or.inr ⟨fn2, sm2, cs2, hm2, hp2⟩
        cases sm with
        | none =>
          rw [walk_remote_cons_none] at hmem
          rcases htail _ hmem with h | ⟨fn2, sm2, cs2, hm2, hp2⟩
          · simp at h
            rw [h]
            exact ⟨fn, none, cs, List.mem_cons_self _ _, List.prefix_refl _⟩
          · exact ⟨fn2, sm2, cs2, List.mem_cons_of_mem _ hm2, hp2⟩
        | some m =>
          cases hm : S_ISDIR m with
          | true =>
            cases hskip : (decide ((sp ++ [fn]).drop s.length ∈ e)
                || fn.startsWith dotStr || decide (fn ∈ EXCLUDE_DIRNAMES)) with
            | true =>
              rw [walk_remote_cons_dir_pruned _ _ _ _ _ _ _ _ _ hm hskip] at hmem
              rcases htail _ hmem with h | ⟨fn2, sm2, cs2, hm2, hp2⟩
              · simp at h
              · exact ⟨fn2, sm2, cs2, List.mem_cons_of_mem _ hm2, hp2⟩
            | false =>
              rw [walk_remote_cons_dir_kept _ _ _ _ _ _ _ _ _ hm hskip] at hmem
              rcases htail _ hmem with h | ⟨fn2, sm2, cs2, hm2, hp2⟩
              · rw [walk_remote_append N cs hcs s r e (sp ++ [fn]) ([] ++ _)] at h
                rcases List.mem_append.mp h with h | h
                · simp at h
                  rw [h]
                  exact ⟨fn, some m, cs, List.mem_cons_self _ _, List.prefix_refl _⟩
                · obtain ⟨fn2, sm2, cs2, hm2, hp2⟩ :=
                    ihN cs hcs s r e (sp ++ [fn]) tp h
                  refine ⟨fn, some m, cs, List.mem_cons_self _ _, ?_⟩
                  exact (List.prefix_append (sp ++ [fn]) [fn2]).trans hp2
              · exact ⟨fn2, sm2, cs2, List.mem_cons_of_mem _ hm2, hp2⟩
          | false =>
            cases hr : S_ISREG m with
            | true =>
              cases he : decide ((sp ++ [fn]).drop s.length ∈ e) with
              | true =>
                rw [walk_remote_cons_reg_skipped _ _ _ _ _ _ _ _ _ hm hr he] at hmem
                rcases htail _ hmem with h | ⟨fn2, sm2, cs2, hm2, hp2⟩
                · simp at h
                · exact ⟨fn2, sm2, cs2, List.mem_cons_of_mem _ hm2, hp2⟩
              | false =>
                rw [walk_remote_cons_reg_kept _ _ _ _ _ _ _ _ _ hm hr he] at hmem
                rcases htail _ hmem with h | ⟨fn2, sm2, cs2, hm2, hp2⟩
                · simp at h
                  rw [h]
                  exact ⟨fn, some m, cs, List.mem_cons_self _ _, List.prefix_refl _⟩
                · exact ⟨fn2, sm2, cs2, List.mem_cons_of_mem _ hm2, hp2⟩
            | false =>
              rw [walk_remote_cons_other _ _ _ _ _ _ _ _ _ hm hr] at hmem
              rcases htail _ hmem with h | ⟨fn2, sm2, cs2, hm2, hp2⟩
              · simp at h
              · exact ⟨fn2, sm2, cs2, List.mem_cons_of_mem _ hm2, hp2⟩

/-! ## Combinators for the scan invariant -/

theorem ScanInv.nil (sp : RPath) : ScanInv sp [] := by
  refine ⟨by simp, by simp, by simp, ?_⟩
  rintro ⟨x, hx⟩
  simp at hx

theorem ScanInv.single (sp : RPath) (tp : TransferPath) (h : Beneath sp tp.remote) :
    ScanInv sp [tp] := by
  refine ⟨by simpa, by simp, by simp, ?_⟩
  rintro ⟨x, hx⟩ ⟨k, hk⟩ ⟨j, hj⟩ hxk hkj hben
  exfalso
  simp only [Fin.mk_lt_mk] at hxk hkj
  simp at hx hk hj
  omega

theorem ScanInv.cons_dir (sp : RPath) (tp : TransferPath) (inner : List TransferPath)
    (hsp : Beneath sp tp.remote)
    (hdir : ∃ m, tp.remote_st_mode = some m ∧ S_ISDIR m = true)
    (hinner : ScanInv tp.remote inner) : ScanInv sp (tp :: inner) := by
  obtain ⟨hmem, hpw1, hpw2, hcontig⟩ := hinner
  refine ⟨?_, ?_, ?_, ?_⟩
  · intro x hx
    rcases List.mem_cons.mp hx with rfl | hx
    · exact hsp
    · exact hsp.trans (hmem x hx)
  · rw [List.pairwise_cons]
    refine ⟨?_, hpw1⟩
    intro b hb hba
    have h1 := (hmem b hb).length_lt
    have h2 := hba.length_lt
    omega
  · rw [List.pairwise_cons]
    exact ⟨fun b hb _ => hdir, hpw2⟩
  · rintro ⟨x, hx⟩ ⟨k, hk⟩ ⟨j, hj⟩ hxk hkj hben
    simp only [Fin.mk_lt_mk] at hxk hkj
    simp only [List.length_cons] at hx hk hj
    cases k with
    | zero => exact absurd hxk (by omega)
    | succ k =>
      cases j with
      | zero => exact absurd hkj (by omega)
      | succ j =>
        cases x with
        | zero =>
          simp only [List.get_eq_getElem, List.getElem_cons_zero,
            List.getElem_cons_succ] at hben ⊢
          exact hmem _ (List.getElem_mem (by omega))
        | succ x =>
          simp only [List.get_eq_getElem, List.getElem_cons_succ] at hben ⊢
          have hc := hcontig ⟨x, by omega⟩ ⟨k, by omega⟩ ⟨j, by omega⟩
            (Fin.mk_lt_mk.mpr (by omega)) (Fin.mk_lt_mk.mpr (by omega))
          simp only [List.get_eq_getElem] at hc
          exact hc hben

theorem ScanInv.append_sep (sp : RPath) (l₁ l₂ : List TransferPath)
    (h₁ : ScanInv sp l₁) (h₂ : ScanInv sp l₂)
    (hsep : ∀ a ∈ l₁, ∀ b ∈ l₂,
      ¬ Beneath a.remote b.remote ∧ ¬ Beneath b.remote a.remote) :
    ScanInv sp (l₁ ++ l₂) := by
  obtain ⟨m1, p1, q1, c1⟩ := h₁
  obtain ⟨m2, p2, q2, c2⟩ := h₂
  refine ⟨?_, ?_, ?_, ?_⟩
  · intro x hx
    rcases List.mem_append.mp hx with h | h
    exacts [m1 x h, m2 x h]
  · rw [List.pairwise_append]
    exact ⟨p1, p2, fun a ha b hb => (hsep a ha b hb).2⟩
  · rw [List.pairwise_append]
    exact ⟨q1, q2, fun a ha b hb hab => absurd hab (hsep a ha b hb).1⟩
  · rintro ⟨x, hx⟩ ⟨k, hk⟩ ⟨j, hj⟩ hxk hkj hben
    simp only [Fin.mk_lt_mk] at hxk hkj
    simp only [List.length_append] at hx hk hj
    have egl : ∀ (n : Nat) (hn : n < l₁.length) (hn2 : n < (l₁ ++ l₂).length),
        (l₁ ++ l₂).get ⟨n, hn2⟩ = l₁.get ⟨n, hn⟩ := by
      intro n hn hn2
      simp [List.get_eq_getElem, List.getElem_append_left hn]
    have egr : ∀ (n : Nat) (hn : l₁.length ≤ n) (hn2 : n < (l₁ ++ l₂).length),
        (l₁ ++ l₂).get ⟨n, hn2⟩ =
          l₂.get ⟨n - l₁.length, by simp only [List.length_append] at hn2; omega⟩ := by
      intro n hn hn2
      simp [List.get_eq_getElem, List.getElem_append_right hn]
    by_cases hxl : x < l₁.length
    · by_cases hjl : j < l₁.length
      · have hkl : k < l₁.length := by omega
        rw [egl x hxl, egl j hjl] at hben
        rw [egl x hxl, egl k hkl]
        exact c1 ⟨x, hxl⟩ ⟨k, hkl⟩ ⟨j, hjl⟩ (Fin.mk_lt_mk.mpr (by omega))
          (Fin.mk_lt_mk.mpr (by omega)) hben
      · exfalso
        rw [egl x hxl, egr j (by omega)] at hben
        exact (hsep _ (List.get_mem l₁ x hxl) _
          (List.get_mem l₂ (j - l₁.length) (by omega))).1 hben
    · have hxr : l₁.length ≤ x := by omega
      have hkr : l₁.length ≤ k := by omega
      have hjr : l₁.length ≤ j := by omega
      rw [egr x hxr, egr j hjr] at hben
      rw [egr x hxr, egr k hkr]
      exact c2 ⟨x - l₁.length, by omega⟩ ⟨k - l₁.length, by omega⟩
        ⟨j - l₁.length, by omega⟩ (Fin.mk_lt_mk.mpr (by omega))
        (Fin.mk_lt_mk.mpr (by omega)) hben

/-- Two scan results rooted at distinct sibling names are incomparable. -/
theorem sep_of_level_names {sp : RPath} {fn fn2 : String} {a b : List String}
    (ha : (sp ++ [fn]) <+: a) (hb : (sp ++ [fn2]) <+: b) (hne : fn ≠ fn2) :
    ¬ Beneath a b := by
  intro hab
  have hfa : (sp ++ [fn]) <+: b := ha.trans hab.1
  have heq : (sp ++ [fn]) = (sp ++ [fn2]) := prefix_eq_of_length_eq hfa hb (by simp)
  exact hne (by simpa using heq)

theorem wfItems_children {items : List RItem} {fn : String} {sm : Option Nat}
    {cs : List RItem} (h : WfItems items) (hm : RItem.mk fn sm cs ∈ items) :
    WfItems cs := by
  cases h with
  | mk hn hs => exact hs fn sm cs hm

theorem wfItems_tail {it : RItem} {rest : List RItem} (h : WfItems (it :: rest)) :
    WfItems rest := by
  cases h with
  | mk hn hs =>
    exact WfItems.mk (by simpa using (List.nodup_cons.mp (by simpa using hn)).2)
      (fun fn sm cs hmem => hs fn sm cs (List.mem_cons_of_mem _ hmem))

theorem wfItems_head_name {fn : String} {sm : Option Nat} {cs rest : List RItem}
    (h : WfItems (RItem.mk fn sm cs :: rest)) : fn ∉ rest.map RItem.filename := by
  cases h with
  | mk hn hs => exact (List.nodup_cons.mp (by simpa using hn)).1

/-- The remote scan of a well-formed listing satisfies the depth-first scan
invariant. -/
theorem walk_remote_scaninv : ∀ (N : Nat) (items : List RItem), sizeOf items ≤ N →
    ∀ (s : RPath) (r : LPath) (e : List RPath) (sp : RPath), WfItems items →
      ScanInv sp (walk_remote s r e sp items []) := by
  intro N
  induction N with
  | zero =>
    intro items h
    exfalso
    cases items <;> simp at h
  | succ N ihN =>
    intro items hsz s r e sp hwf
    cases items with
    | nil =>
      rw [walk_remote_nil]
      exact ScanInv.nil sp
    | cons it rest =>
      cases it with
      | mk fn sm cs =>
        have hrest : sizeOf rest ≤ N := by simp at hsz; omega
        have hcs : sizeOf cs ≤ N := by simp at hsz; omega
        have hsep : ∀ (block : List TransferPath),
            (∀ a ∈ block, (sp ++ [fn]) <+: a.remote) →
            ∀ a ∈ block, ∀ b ∈ walk_remote s r e sp rest [],
              ¬ Beneath a.remote b.remote ∧ ¬ Beneath b.remote a.remote := by
          intro block hblock a ha b hb
          obtain ⟨fn2, sm2, cs2, hm2, hp2⟩ :=
            walk_remote_mem_aux N rest hrest s r e sp b hb
          have hne : fn ≠ fn2 := by
            intro hcontra
            exact (wfItems_head_name hwf) (hcontra ▸ (List.mem_map_of_mem RItem.filename hm2 :
              RItem.filename (RItem.mk fn2 sm2 cs2) ∈ rest.map RItem.filename))
          exact ⟨sep_of_level_names (hblock a ha) hp2 hne,
            sep_of_level_names hp2 (hblock a ha) hne.symm⟩
        have hsingle : ∀ (mo : Option Nat),
            ScanInv sp ([(⟨r ++ (sp ++ [fn]).drop s.length, (sp ++ [fn]).drop s.length,
              sp ++ [fn], mo⟩ : TransferPath)] ++ walk_remote s r e sp rest []) := by
          intro mo
          refine ScanInv.append_sep sp _ _
            (ScanInv.single sp _ (beneath_append_singleton sp fn))
            (ihN rest hrest s r e sp (wfItems_tail hwf)) (hsep _ ?_)
          intro a ha
          simp at ha
          rw [ha]
        cases sm with
        | none =>
          rw [walk_remote_cons_none,
            walk_remote_append N rest hrest s r e sp ([] ++ _)]
          simpa using hsingle none
        | some m =>
          cases hm : S_ISDIR m with
          | true =>
            cases hskip : (decide ((sp ++ [fn]).drop s.length ∈ e)
                || fn.startsWith dotStr || decide (fn ∈ EXCLUDE_DIRNAMES)) with
            | true =>
              rw [walk_remote_cons_dir_pruned _ _ _ _ _ _ _ _ _ hm hskip]
              exact ihN rest hrest s r e sp (wfItems_tail hwf)
            | false =>
              rw [walk_remote_cons_dir_kept _ _ _ _ _ _ _ _ _ hm hskip,
                walk_remote_append N rest hrest s r e sp _,
                walk_remote_append N cs hcs s r e (sp ++ [fn]) ([] ++ _)]
              simp only [List.nil_append, List.singleton_append]
              have hblockmem : ∀ a ∈ (⟨r ++ (sp ++ [fn]).drop s.length,
                  (sp ++ [fn]).drop s.length, sp ++ [fn], some m⟩ : TransferPath) ::
                    walk_remote s r e (sp ++ [fn]) cs [],
                  (sp ++ [fn]) <+: a.remote := by
                intro a ha
                rcases List.mem_cons.mp ha with rfl | ha
                · exact List.prefix_refl _
                · obtain ⟨fn3, sm3, cs3, hm3, hp3⟩ :=
                    walk_remote_mem_aux N cs hcs s r e (sp ++ [fn]) a ha
                  exact (List.prefix_append (sp ++ [fn]) [fn3]).trans hp3
              refine ScanInv.append_sep sp _ _ ?_
                (ihN rest hrest s r e sp (wfItems_tail hwf)) (hsep _ hblockmem)
              refine ScanInv.cons_dir sp _ _ (beneath_append_singleton sp fn)
                ⟨m, rfl, hm⟩ ?_
              exact ihN cs hcs s r e (sp ++ [fn])
                ((wfItems_children hwf) (List.mem_cons_self _ _))
          | false =>
            cases hr : S_ISREG m with
            | true =>
              cases he : decide ((sp ++ [fn]).drop s.length ∈ e) with
              | true =>
                rw [walk_remote_cons_reg_skipped _ _ _ _ _ _ _ _ _ hm hr he]
                exact ihN rest hrest s r e sp (wfItems_tail hwf)
              | false =>
                rw [walk_remote_cons_reg_kept _ _ _ _ _ _ _ _ _ hm hr he,
                  walk_remote_append N rest hrest s r e sp ([] ++ _)]
                simpa using hsingle (some m)
            | false =>
              rw [walk_remote_cons_other _ _ _ _ _ _ _ _ _ hm hr]
              exact ihN rest hrest s r e sp (wfItems_tail hwf)

/-- Claim C3: in the ordered list returned by the remote tree scan
(walk_remote, started at the remote root s as Server.get does), every entry
with any entry strictly beneath it is a directory and precedes all such
entries (for all indices a, b: if entry b's remote path is strictly under
entry a's remote path then a comes before b and a is a directory), and a
directory's descendants appear contiguously immediately after it (every
entry strictly between a and one of a's descendants is itself a descendant
of a). -/
theorem c3_remote_scan_dfs_order (s : RPath) (r : LPath) (e : List RPath)
    (items : List RItem) (hwf : WfItems items) :
    (∀ (a b : Fin (walk_remote s r e s items []).length),
      Beneath ((walk_remote s r e s items []).get a).remote
        ((walk_remote s r e s items []).get b).remote →
      a < b ∧ ∃ m, ((walk_remote s r e s items []).get a).remote_st_mode = some m ∧
        S_ISDIR m = true) ∧
    (∀ (a k b : Fin (walk_remote s r e s items []).length), a < k → k < b →
      Beneath ((walk_remote s r e s items []).get a).remote
        ((walk_remote s r e s items []).get b).remote →
      Beneath ((walk_remote s r e s items []).get a).remote
        ((walk_remote s r e s items []).get k).remote) := by
  obtain ⟨hmem, hpw1, hpw2, hcontig⟩ :=
    walk_remote_scaninv (sizeOf items) items le_rfl s r e s hwf
  refine ⟨?_, hcontig⟩
  intro a b hben
  have hab : a < b := by
    rcases lt_trichotomy a b with h | h | h
    · exact h
    · exfalso; rw [h] at hben; exact (beneath_irrefl _) hben
    · exact absurd hben (List.pairwise_iff_get.mp hpw1 b a h)
  exact ⟨hab, List.pairwise_iff_get.mp hpw2 a b hab hben⟩

/-- Concrete instance of C3 on the remote tree www/{a.txt, sub/{c.txt}}. -/
theorem c3_remote_scan_dfs_order_witness :
    WfItems [RItem.mk "a.txt" (some 0o100644) [],
      RItem.mk "sub" (some 0o040755) [RItem.mk "c.txt" (some 0o100644) []]] ∧
    (∀ (a b : Fin (walk_remote ["www"] ["loc"] [] ["www"]
        [RItem.mk "a.txt" (some 0o100644) [],
         RItem.mk "sub" (some 0o040755) [RItem.mk "c.txt" (some 0o100644) []]] []).length),
      Beneath ((walk_remote ["www"] ["loc"] [] ["www"]
          [RItem.mk "a.txt" (some 0o100644) [],
           RItem.mk "sub" (some 0o040755) [RItem.mk "c.txt" (some 0o100644) []]] []).get a).remote
        ((walk_remote ["www"] ["loc"] [] ["www"]
          [RItem.mk "a.txt" (some 0o100644) [],
           RItem.mk "sub" (some 0o040755) [RItem.mk "c.txt" (some 0o100644) []]] []).get b).remote →
      a < b ∧ ∃ m, ((walk_remote ["www"] ["loc"] [] ["www"]
          [RItem.mk "a.txt" (some 0o100644) [],
           RItem.mk "sub" (some 0o040755) [RItem.mk "c.txt" (some 0o100644) []]] []).get a).remote_st_mode
        = some m ∧ S_ISDIR m = true) := by
  have hwf : WfItems [RItem.mk "a.txt" (some 0o100644) [],
      RItem.mk "sub" (some 0o040755) [RItem.mk "c.txt" (some 0o100644) []]] := by
    refine WfItems.mk (by decide) ?_
    intro fn sm cs hmem
    simp only [List.mem_cons, List.mem_singleton, RItem.mk.injEq,
      List.not_mem_nil, or_false] at hmem
    rcases hmem with ⟨rfl, rfl, rfl⟩ | ⟨rfl, rfl, rfl⟩
    · exact WfItems.mk (by decide) (fun fn sm cs h => by simp at h)
    · refine WfItems.mk (by decide) ?_
      intro fn sm cs h
      simp only [List.mem_singleton, RItem.mk.injEq] at h
      rcases h with ⟨rfl, rfl, rfl⟩
      exact WfItems.mk (by decide) (fun fn sm cs h => by simp at h)
  exact ⟨hwf, (c3_remote_scan_dfs_order ["www"] ["loc"] []
    [RItem.mk "a.txt" (some 0o100644) [],
     RItem.mk "sub" (some 0o040755) [RItem.mk "c.txt" (some 0o100644) []]] hwf).1⟩

/-! ## The download loop: claims C5 and C10 -/

theorem downloadPhase_append (l1 l2 : List TransferPath) :
    downloadPhase (l1 ++ l2) = downloadPhase l1 ++ downloadPhase l2 := by
  induction l1 with
  | nil => simp [downloadPhase]
  | cons tp rest ih => simp [downloadPhase, ih]

theorem downloadPhase_skip_mem (l : List TransferPath) (tp : TransferPath)
    (hmem : tp ∈ l) (hmode : tp.remote_st_mode = none) :
    GetEvent.skip tp.relative ∈ downloadPhase l := by
  induction l with
  | nil => simp at hmem
  | cons hd rest ih =>
    rcases List.mem_cons.mp hmem with rfl | hmem
    · simp [downloadPhase, hmode]
    · have hr := ih hmem
      simp only [downloadPhase, List.mem_append, List.mem_cons]
      tauto

/-- Claim C5: a remote entry whose stat mode is undetermined is still
appended to the scan result (after the logged warning of cr/ssh.py line 178),
without recursing below it; and the download phase of get neither transfers
such an entry nor fails on it: it emits a SKIP notice, advances the progress
bar, and continues with the remaining entries unchanged. -/
theorem c5_unknown_type_skip (s : RPath) (r : LPath) (e : List RPath) (sp : RPath)
    (fn : String) (cs rest : List RItem) (lp : List TransferPath) :
    (walk_remote s r e sp (RItem.mk fn none cs :: rest) lp =
      walk_remote s r e sp rest (lp ++
        [⟨r ++ (sp ++ [fn]).drop s.length, (sp ++ [fn]).drop s.length,
          sp ++ [fn], none⟩]) ∧
     (⟨r ++ (sp ++ [fn]).drop s.length, (sp ++ [fn]).drop s.length,
        sp ++ [fn], none⟩ : TransferPath) ∈
          walk_remote s r e sp (RItem.mk fn none cs :: rest) lp) ∧
    (∀ (l1 l2 : List TransferPath) (tq : TransferPath), tq.remote_st_mode = none →
      downloadPhase (l1 ++ tq :: l2) =
        downloadPhase l1 ++ GetEvent.skip tq.relative :: GetEvent.advance ::
          downloadPhase l2) := by
  refine ⟨⟨walk_remote_cons_none s r e sp fn cs rest lp, ?_⟩, ?_⟩
  · rw [walk_remote_cons_none,
      walk_remote_append (sizeOf rest) rest le_rfl s r e sp]
    simp
  · intro l1 l2 tq hmode
    rw [downloadPhase_append]
    simp [downloadPhase, hmode]

/-- Concrete instance of C5: a single unknown-mode entry is scanned into the
plan, and its download step is exactly a SKIP notice plus a progress
advance. -/
theorem c5_unknown_type_skip_witness :
    (⟨["loc", "broken"], ["broken"], ["www", "broken"], none⟩ : TransferPath) ∈
      walk_remote ["www"] ["loc"] [] ["www"] [RItem.mk "broken" none []] [] ∧
    downloadPhase [⟨["loc", "broken"], ["broken"], ["www", "broken"], none⟩] =
      [GetEvent.skip ["broken"], GetEvent.advance] := by
  have h := c5_unknown_type_skip ["www"] ["loc"] [] ["www"] "broken" [] [] []
  constructor
  · have h2 := h.1.2
    simpa using h2
  · have h3 := h.2 [] []
      (⟨["loc", "broken"], ["broken"], ["www", "broken"], none⟩ : TransferPath) rfl
    simpa [downloadPhase] using h3

/-- Claim C10: in the remote scan used by get, an entry whose stat mode is
undetermined bypasses every exclusion rule: even when its relative path is a
member of the exclusion list and its name is a default-excluded directory
name, the scan step appends it unconditionally, it reaches the final plan,
and the download phase later emits a SKIP event for it. -/
theorem c10_unknown_bypasses_exclusion (s : RPath) (r : LPath) (e : List RPath)
    (sp : RPath) (fn : String) (cs rest : List RItem) (lp : List TransferPath)
    (he : decide ((sp ++ [fn]).drop s.length ∈ e) = true)
    (hn : decide (fn ∈ EXCLUDE_DIRNAMES) = true) :
    walk_remote s r e sp (RItem.mk fn none cs :: rest) lp =
      walk_remote s r e sp rest (lp ++
        [⟨r ++ (sp ++ [fn]).drop s.length, (sp ++ [fn]).drop s.length,
          sp ++ [fn], none⟩]) ∧
    (⟨r ++ (sp ++ [fn]).drop s.length, (sp ++ [fn]).drop s.length,
        sp ++ [fn], none⟩ : TransferPath) ∈
      walk_remote s r e sp (RItem.mk fn none cs :: rest) lp ∧
    GetEvent.skip ((sp ++ [fn]).drop s.length) ∈
      downloadPhase (walk_remote s r e sp (RItem.mk fn none cs :: rest) lp) := by
  have hmem : (⟨r ++ (sp ++ [fn]).drop s.length, (sp ++ [fn]).drop s.length,
      sp ++ [fn], none⟩ : TransferPath) ∈
        walk_remote s r e sp (RItem.mk fn none cs :: rest) lp := by
    rw [walk_remote_cons_none,
      walk_remote_append (sizeOf rest) rest le_rfl s r e sp]
    simp
  exact ⟨walk_remote_cons_none s r e sp fn cs rest lp, hmem,
    downloadPhase_skip_mem _ _ hmem rfl⟩

/-- Concrete instance of C10: the relative path node_modules is in the
exclusion list and is also a default-excluded name, yet the unknown-mode
entry is planned and the download loop emits a SKIP for it. -/
theorem c10_unknown_bypasses_exclusion_witness :
    GetEvent.skip ["node_modules"] ∈ downloadPhase (walk_remote ["www"] ["loc"]
      [["node_modules"]] ["www"] [RItem.mk "node_modules" none []] []) := by
  have h := (c10_unknown_bypasses_exclusion ["www"] ["loc"] [["node_modules"]]
    ["www"] "node_modules" [] [] [] (by decide) (by decide)).2.2
  simpa using h
